import Mathlib

/-!
Verification of the gitboard dashboard's core logic: repository selection
state (`RepoInput.tsx`, `App.tsx`), the URL encoding of the selection
(`getReposFromUrl` / `updateUrl` in `App.tsx`), the per-metric fetch
orchestrators (`CommitChart.tsx`, `ContributorsChart.tsx`,
`IssuesChart.tsx`), and the series-alignment transforms that build the
merged chart datasets.

JavaScript strings are embedded as `List Char`; `String.prototype.split`
with a one-character separator is embedded as `splitOnChar`, and template
concatenation as list append.  React `useState` maps are embedded as
insertion-ordered association lists, matching the iteration order of a
JavaScript `Map`.
-/

/-- JavaScript string, embedded as a list of characters. -/
abbrev Str := List Char

/-- JavaScript `s.toLowerCase()` on the ASCII range, as used by the duplicate check. -/
def lowerStr (s : Str) : Str := s.map Char.toLower

/-- The `ParsedRepo` shape from `src/lib/github`: an `{owner, name}` pair. -/
structure ParsedRepo where
  owner : Str
  name : Str
deriving DecidableEq

/-- The string key `` `${repo.owner}/${repo.name}` `` used for all state maps. -/
def repoKey (r : ParsedRepo) : Str := r.owner ++ '/' :: r.name

/-- JavaScript `s.split(sep)` for a one-character separator: always returns at least one
(possibly empty) segment, with separators deleted. -/
def splitOnChar (sep : Char) : Str → List Str
  | [] => [[]]
  | c :: cs =>
    if c = sep then [] :: splitOnChar sep cs
    else
      match splitOnChar sep cs with
      | r :: rs => (c :: r) :: rs
      | [] => [[c]]

/-- JavaScript `parts.join(sep)` for a one-character separator. -/
def joinSep (sep : Char) : List Str → Str
  | [] => []
  | [p] => p
  | p :: ps => p ++ sep :: joinSep sep ps

theorem splitOnChar_ne_nil (sep : Char) (s : Str) : splitOnChar sep s ≠ [] := by
  cases s with
  | nil => simp [splitOnChar]
  | cons c cs =>
    simp only [splitOnChar]
    split
    · simp
    · cases h : splitOnChar sep cs <;> simp

theorem splitOnChar_no_sep (sep : Char) (s : Str) (h : sep ∉ s) :
    splitOnChar sep s = [s] := by
  induction s with
  | nil => rfl
  | cons c cs ih =>
    simp only [List.mem_cons, not_or] at h
    have hc : ¬ c = sep := fun hc => h.1 hc.symm
    simp only [splitOnChar, if_neg hc, ih h.2]

theorem splitOnChar_append (sep : Char) (p rest : Str) (h : sep ∉ p) :
    splitOnChar sep (p ++ sep :: rest) = p :: splitOnChar sep rest := by
  induction p with
  | nil => simp [splitOnChar]
  | cons c cs ih =>
    simp only [List.mem_cons, not_or] at h
    have hc : ¬ c = sep := fun hc => h.1 hc.symm
    simp only [List.cons_append, splitOnChar, if_neg hc, List.append_eq, ih h.2]

theorem splitOnChar_joinSep (sep : Char) (parts : List Str)
    (hne : parts ≠ []) (h : ∀ p ∈ parts, sep ∉ p) :
    splitOnChar sep (joinSep sep parts) = parts := by
  induction parts with
  | nil => exact absurd rfl hne
  | cons p ps ih =>
    cases ps with
    | nil => exact splitOnChar_no_sep sep p (h p (List.mem_cons_self p []))
    | cons q qs =>
      have hp : sep ∉ p := h p (List.mem_cons_self _ _)
      have hrest : ∀ x ∈ q :: qs, sep ∉ x := fun x hx =>
        h x (List.mem_cons_of_mem _ hx)
      simp only [joinSep]
      rw [splitOnChar_append sep p _ hp, ih (by simp) hrest]

/-! ## URL encoding of the selection (`App.tsx`) -/

/-- One segment of the `repos` query parameter:
`const [owner, name] = r.split("/"); if (owner && name) return {owner, name}`.
Components after the first two are discarded by the destructuring; an empty
owner or name is falsy, so the segment is dropped. -/
def parseSegment (r : Str) : Option ParsedRepo :=
  match splitOnChar '/' r with
  | owner :: name :: _ =>
    if owner.isEmpty || name.isEmpty then none else some ⟨owner, name⟩
  | _ => none

/-- The `getReposFromUrl` function from `App.tsx`: the `repos` query parameter (or `none`
when absent) split on commas, each segment parsed, failures filtered out.
An absent or empty parameter is falsy and yields the empty selection. -/
def getReposFromUrl (reposParam : Option Str) : List ParsedRepo :=
  match reposParam with
  | none => []
  | some p =>
    if p.isEmpty then []
    else (splitOnChar ',' p).filterMap parseSegment

/-- The `updateUrl` function from `App.tsx`, restricted to the value it writes into the
`repos` query parameter: `none` means the parameter is deleted (empty
selection), otherwise the comma-joined `owner/name` keys. -/
def encodeRepos (repos : List ParsedRepo) : Option Str :=
  if repos.isEmpty then none
  else some (joinSep ',' (repos.map repoKey))

/-! ## Repository selection state (`RepoInput.tsx`, `App.tsx`) -/

/-- The case-insensitive duplicate check in `RepoInput.handleAdd`. -/
def isDuplicate (repos : List ParsedRepo) (parsed : ParsedRepo) : Bool :=
  repos.any fun r =>
    lowerStr r.owner == lowerStr parsed.owner &&
    lowerStr r.name == lowerStr parsed.name

/-- Outcome of an `add` attempt: either the inline validation message is
shown and the selection is untouched, or `App.handleAddRepo` appends. -/
inductive AddOutcome where
  | rejected (message : Str)
  | added (repos : List ParsedRepo)
deriving DecidableEq

/-- The `RepoInput.handleAdd` path composed with `App.handleAddRepo`, for an input
that already parsed to `parsed` (the `parseRepoInput` step lives in the
repository's `src/lib/github`, outside the files under verification; this
models the path after a successful parse). -/
def handleAdd (repos : List ParsedRepo) (parsed : ParsedRepo) : AddOutcome :=
  if isDuplicate repos parsed then
    .rejected ("Repository already added".toList)
  else
    .added (repos ++ [parsed])

example : handleAdd [⟨"A".toList, "B".toList⟩] ⟨"a".toList, "b".toList⟩ =
    .rejected ("Repository already added".toList) := by decide

example : getReposFromUrl (encodeRepos [⟨"a".toList, "b".toList⟩]) =
    [⟨"a".toList, "b".toList⟩] := by decide

example : getReposFromUrl (some ("a/b,A/B".toList)) =
    [⟨"a".toList, "b".toList⟩, ⟨"A".toList, "B".toList⟩] := by decide

/-! ## Metric data points (`src/lib/github` response shapes read by the charts) -/

/-- One week of the commit-activity series; the chart reads `.total` and
`.week` (a unix week-start timestamp). -/
structure CommitWeek where
  total : Nat
  week : Int
deriving DecidableEq

/-- One week of the contributor series. -/
structure ContribWeek where
  week : Int
  contributors : Nat
deriving DecidableEq

/-- One week of the issues-opened (or issues-closed) series. -/
structure IssueWeek where
  week : Int
  issues : Nat
deriving DecidableEq

/-- The fixed poll delay passed to `setTimeout` for the stats-computing
retry.  The constant lives in `src/lib/github`; its numeric value is a
tunable, not a contract, so only its identity matters here. -/
def POLL_INTERVAL_MS : Nat := 5000

/-! ## Fetch orchestrator (`CommitChart.tsx` / `ContributorsChart.tsx`)

The two stats charts run the identical state machine; it is embedded once,
generic in the series element type `α` (`CommitWeek` for the commit chart,
`ContribWeek` for the contributors chart).  `Map` state is an
insertion-ordered association list; `Map.set` on an existing key keeps its
position, on a new key appends.  In-flight promises are a list of pending
requests (a fetch is not cancellable at the transport level, so removal
from the selection does not remove the request).  `pollTimers` holds the
pending (unfired, uncancelled) retry timers with their delay; a cleared
or fired `setTimeout` handle has no further observable behavior. -/

/-- The per-repository `RepoData` record of the stats charts
(`activity`/`data`, `error`, `loading`, `computing`). -/
structure FetchEntry (α : Type) where
  repo : ParsedRepo
  data : Option (List α)
  error : Option Str
  loading : Bool
  computing : Bool
deriving DecidableEq

/-- JavaScript `map.get(k)` on an insertion-ordered association list. -/
def lookupA {β : Type} (m : List (Str × β)) (k : Str) : Option β :=
  (m.find? (fun e => e.1 == k)).map (·.2)

/-- JavaScript `map.set(k, v)`: replaces in place when the key exists, else appends. -/
def setA {β : Type} (m : List (Str × β)) (k : Str) (v : β) : List (Str × β) :=
  if (m.find? (fun e => e.1 == k)).isSome then
    m.map (fun e => if e.1 == k then (k, v) else e)
  else m ++ [(k, v)]

/-- State of one stats-chart orchestrator instance, together with the
selection prop it last reconciled against. -/
structure OrchState (α : Type) where
  repoData : List (Str × FetchEntry α)
  pollTimers : List (Str × ParsedRepo × Nat)
  inFlight : List (Str × ParsedRepo)
  selection : List ParsedRepo
deriving DecidableEq

/-- The state an orchestrator mounts with. -/
def orchInit (α : Type) : OrchState α := ⟨[], [], [], []⟩

/-- The `fetchRepo(repo, isRetry)` closure: writes the loading/computing entry
(keeping a previously fetched series, `existing?.activity ?? null`) and
issues a client call. -/
def fetchRepoStep {α : Type} (s : OrchState α) (repo : ParsedRepo)
    (isRetry : Bool) : OrchState α :=
  let k := repoKey repo
  let entry : FetchEntry α :=
    { repo := repo
      data := (lookupA s.repoData k).bind (·.data)
      error := none
      loading := !isRetry
      computing := isRetry }
  { s with
    repoData := setA s.repoData k entry
    inFlight := s.inFlight ++ [(k, repo)] }

/-- How one client call settles: a series, the distinguished
`StatsComputingError`, or a hard error with a message. -/
inductive FetchResult (α : Type) where
  | ok (series : List α)
  | computingErr
  | hardErr (msg : Str)

/-- The `i`-th in-flight promise settles with `res`, running the `.then` /
`.catch` handlers of `fetchRepo`: success clears the pending retry timer
and stores the series; `StatsComputingError` stores the computing flag and
schedules a retry after `POLL_INTERVAL_MS`; any other error stores its
message.  Note the handlers are not guarded by membership in the current
selection. -/
def applyResult {α : Type} (s : OrchState α) (i : Nat) (res : FetchResult α) :
    OrchState α :=
  match s.inFlight.get? i with
  | none => s
  | some (k, repo) =>
    let s := { s with inFlight := s.inFlight.eraseIdx i }
    match res with
    | .ok series =>
      { s with
        pollTimers := s.pollTimers.filter (fun t => !(t.1 == k))
        repoData := setA s.repoData k ⟨repo, some series, none, false, false⟩ }
    | .computingErr =>
      let timers := s.pollTimers.filter (fun t => !(t.1 == k))
      { s with
        repoData := setA s.repoData k ⟨repo, none, none, false, true⟩
        pollTimers := timers ++ [(k, repo, POLL_INTERVAL_MS)] }
    | .hardErr msg =>
      { s with repoData := setA s.repoData k ⟨repo, none, some msg, false, false⟩ }

/-- The pending retry timer for key `k` fires: its callback re-invokes
`fetchRepo(repo, true)`. -/
def timerFireStep {α : Type} (s : OrchState α) (k : Str) : OrchState α :=
  match s.pollTimers.find? (fun t => t.1 == k) with
  | none => s
  | some (_, repo, _) =>
    let s := { s with pollTimers := s.pollTimers.filter (fun t => !(t.1 == k)) }
    fetchRepoStep s repo true

/-- The effect guard: skip the fetch when the entry already holds a series
(a present but possibly empty array is truthy), is loading, or is
computing. -/
def shouldSkip {α : Type} (e : FetchEntry α) : Bool :=
  e.data.isSome || e.loading || e.computing

/-- The effect body's decision whether to fetch the repository stored
under key `k`: fetch when the key is absent, or present without a series,
not loading and not computing. -/
def fetchGuardPasses {α : Type} (s0 : OrchState α) (k : Str) : Bool :=
  match lookupA s0.repoData k with
  | some e => !(shouldSkip e)
  | none => true

/-- The `repos` prop changes and React re-runs the effect: the previous
effect's cleanup first cancels every pending timer, then the body fetches
each selected repository whose entry (in the render snapshot) does not
pass the guard, then the functional state update deletes entries whose key
left the selection.  The body's own timer-cleanup loop iterates the map
just emptied by the cleanup, so it is a no-op. -/
def reposChange {α : Type} (s0 : OrchState α) (repos : List ParsedRepo) :
    OrchState α :=
  let cleaned : OrchState α := { s0 with pollTimers := [] }
  let toFetch := repos.filter (fun repo => fetchGuardPasses s0 (repoKey repo))
  let fetched := toFetch.foldl (fun acc repo => fetchRepoStep acc repo false) cleaned
  let keys := repos.map repoKey
  { fetched with
    repoData := fetched.repoData.filter (fun e => keys.contains e.1)
    selection := repos }

/-- One observable event in an orchestrator's life. -/
inductive OrchEvent (α : Type) where
  | reposChange (repos : List ParsedRepo)
  | result (i : Nat) (res : FetchResult α)
  | timerFire (k : Str)

/-- Interleaving semantics: apply one event. -/
def orchStep {α : Type} (s : OrchState α) : OrchEvent α → OrchState α
  | .reposChange repos => reposChange s repos
  | .result i res => applyResult s i res
  | .timerFire k => timerFireStep s k

/-- Run a whole event trace from the mount state. -/
def orchExec {α : Type} (events : List (OrchEvent α)) : OrchState α :=
  events.foldl orchStep (orchInit α)

/-! ## Issues orchestrator (`IssuesChart.tsx`, and its `IssuesClosedChart`
twin): no computing state, no timers, plus a `fetchedRepos` ref guarding
against duplicate fetches. -/

/-- The per-repository `RepoData` record of the issues charts. -/
structure IssuesEntry where
  repo : ParsedRepo
  data : Option (List IssueWeek)
  error : Option Str
  loading : Bool
deriving DecidableEq

/-- State of one issues-chart orchestrator instance. -/
structure IssuesState where
  repoData : List (Str × IssuesEntry)
  fetchedRepos : List Str
  inFlight : List (Str × ParsedRepo)
  selection : List ParsedRepo
deriving DecidableEq

/-- The state an issues orchestrator mounts with. -/
def issuesInit : IssuesState := ⟨[], [], [], []⟩

/-- The `fetchRepo` closure of `IssuesChart`: bail out if the key was ever fetched
(per the `fetchedRepos` ref), else record it, write the loading entry and
issue the client call. -/
def issuesFetchStep (s : IssuesState) (repo : ParsedRepo) : IssuesState :=
  let k := repoKey repo
  if s.fetchedRepos.contains k then s
  else
    { s with
      fetchedRepos := s.fetchedRepos ++ [k]
      repoData := setA s.repoData k ⟨repo, none, none, true⟩
      inFlight := s.inFlight ++ [(k, repo)] }

/-- The `i`-th in-flight issues request settles. -/
def issuesApplyResult (s : IssuesState) (i : Nat)
    (res : Option (List IssueWeek) × Option Str) : IssuesState :=
  match s.inFlight.get? i with
  | none => s
  | some (k, repo) =>
    let s := { s with inFlight := s.inFlight.eraseIdx i }
    match res with
    | (some series, _) =>
      { s with repoData := setA s.repoData k ⟨repo, some series, none, false⟩ }
    | (none, msg) =>
      { s with repoData := setA s.repoData k ⟨repo, none, msg, false⟩ }

/-- The effect body of `IssuesChart`: fetch each selected repository whose
key is absent from the render snapshot of `repoData`, then delete state
entries (and their `fetchedRepos` marks) for keys that left the
selection. -/
def issuesReposChange (s0 : IssuesState) (repos : List ParsedRepo) :
    IssuesState :=
  let toFetch := repos.filter (fun repo =>
    (lookupA s0.repoData (repoKey repo)).isNone)
  let fetched := toFetch.foldl issuesFetchStep s0
  let keys := repos.map repoKey
  let removedKeys := (fetched.repoData.map Prod.fst).filter
    (fun k => !(keys.contains k))
  { fetched with
    repoData := fetched.repoData.filter (fun e => keys.contains e.1)
    fetchedRepos := fetched.fetchedRepos.filter (fun k => !(removedKeys.contains k))
    selection := repos }

/-! ## Series aligners (the `chartData` transforms) -/

/-- One row of the merged chart dataset: the canonical week timestamp plus
one column per repository key that got a value (the human-readable week
label, produced by `formatWeekDate` in `src/lib/github`, carries no
alignment information and is omitted). -/
structure ChartPoint where
  weekTimestamp : Int
  cols : List (Str × Nat)
deriving DecidableEq

/-- The base-series test `d.activity && d.activity.length > 0`. -/
def hasData {α : Type} (d : FetchEntry α) : Bool :=
  match d.data with
  | some a => !a.isEmpty
  | none => false

/-- The base series `baseRepoData?.activity`: the series of the first entry, in `Map`
insertion order, holding a non-empty series. -/
def baseSeries {α : Type} (repoData : List (Str × FetchEntry α)) :
    Option (List α) :=
  ((repoData.map Prod.snd).find? hasData).bind (·.data)

/-- The `chartData` transform of `CommitChart.tsx`: one row per base-series
entry (no truncation); each selected repository's column is filled from
its own series **by position** — `data.activity[index]` — whenever that
index is in bounds. -/
def commitChartData (repos : List ParsedRepo)
    (repoData : List (Str × FetchEntry CommitWeek)) : List ChartPoint :=
  let repoKeys := repos.map repoKey
  match baseSeries repoData with
  | none => []
  | some activity =>
    activity.enum.map (fun p =>
      { weekTimestamp := p.2.week
        cols := repoKeys.filterMap (fun k =>
          match (lookupA repoData k).bind (·.data) with
          | none => none
          | some act => (act.get? p.1).map (fun dw => (k, dw.total))) })

/-- The `chartData` transform of `ContributorsChart.tsx`: the base series
is cut to its last 52 entries (`slice(-52)`), and each repository's column
is filled by exact week-timestamp match (`find(w => w.week === week.week)`),
left absent when there is no match. -/
def contributorsChartData (repos : List ParsedRepo)
    (repoData : List (Str × FetchEntry ContribWeek)) : List ChartPoint :=
  let repoKeys := repos.map repoKey
  match baseSeries repoData with
  | none => []
  | some data =>
    let last52 := data.drop (data.length - 52)
    last52.map (fun w =>
      { weekTimestamp := w.week
        cols := repoKeys.filterMap (fun k =>
          match (lookupA repoData k).bind (·.data) with
          | none => none
          | some s => (s.find? (fun x => x.week == w.week)).map
              (fun dp => (k, dp.contributors))) })

/-- The base-series test of the issues charts. -/
def issuesHasData (d : IssuesEntry) : Bool :=
  match d.data with
  | some a => !a.isEmpty
  | none => false

/-- The base series `baseRepoData?.data` for the issues charts. -/
def issuesBaseSeries (repoData : List (Str × IssuesEntry)) :
    Option (List IssueWeek) :=
  ((repoData.map Prod.snd).find? issuesHasData).bind (·.data)

/-- The `chartData` transform of `IssuesChart.tsx`: one row per base-series
entry (no truncation); every repository that has produced a series gets a
column, filled by exact week-timestamp match and defaulting to `0`
(`weekData?.issues ?? 0`) when there is no match. -/
def issuesChartData (repos : List ParsedRepo)
    (repoData : List (Str × IssuesEntry)) : List ChartPoint :=
  let repoKeys := repos.map repoKey
  match issuesBaseSeries repoData with
  | none => []
  | some series =>
    series.map (fun w =>
      { weekTimestamp := w.week
        cols := repoKeys.filterMap (fun k =>
          match (lookupA repoData k).bind (·.data) with
          | none => none
          | some s => some (k,
              (((s.find? (fun x => x.week == w.week)).map (·.issues)).getD 0))) })

/-! ## Shared concrete repositories for the concrete scenarios -/

/-- A concrete repository reference used in concrete scenarios. -/
def repoA : ParsedRepo := ⟨"a".toList, "x".toList⟩

/-- A second concrete repository reference used in concrete scenarios. -/
def repoB : ParsedRepo := ⟨"b".toList, "y".toList⟩

/-! ## Helper lemmas -/

/-- A segment well-formed enough to survive the URL round trip: non-empty
owner and name, free of the two separator characters. -/
def wellFormedRepo (r : ParsedRepo) : Prop :=
  r.owner ≠ [] ∧ r.name ≠ [] ∧ ',' ∉ r.owner ∧ '/' ∉ r.owner ∧
    ',' ∉ r.name ∧ '/' ∉ r.name

instance (r : ParsedRepo) : Decidable (wellFormedRepo r) := by
  unfold wellFormedRepo; infer_instance

theorem repoKey_ne_nil (r : ParsedRepo) : repoKey r ≠ [] := by
  unfold repoKey; cases r.owner <;> simp

theorem comma_not_mem_repoKey (r : ParsedRepo) (h : wellFormedRepo r) :
    ',' ∉ repoKey r := by
  unfold repoKey
  intro hm
  rcases List.mem_append.mp hm with h1 | h2
  · exact h.2.2.1 h1
  · rcases List.mem_cons.mp h2 with h3 | h4
    · exact absurd h3 (by decide)
    · exact h.2.2.2.2.1 h4

theorem joinSep_cons_ne_nil (sep : Char) (x : Str) (xs : List Str)
    (hx : x ≠ []) : joinSep sep (x :: xs) ≠ [] := by
  cases xs with
  | nil => simpa [joinSep]
  | cons y ys => cases x <;> simp [joinSep]

theorem parseSegment_repoKey (r : ParsedRepo) (h : wellFormedRepo r) :
    parseSegment (repoKey r) = some r := by
  unfold parseSegment repoKey
  rw [splitOnChar_append '/' r.owner r.name h.2.2.2.1,
    splitOnChar_no_sep '/' r.name h.2.2.2.2.2]
  have ho : r.owner.isEmpty = false := by
    cases ho : r.owner.isEmpty
    · rfl
    · exact absurd (List.isEmpty_iff.mp ho) h.1
  have hn : r.name.isEmpty = false := by
    cases hn : r.name.isEmpty
    · rfl
    · exact absurd (List.isEmpty_iff.mp hn) h.2.1
  simp [ho, hn]

theorem filterMap_id_of_some {α : Type} (f : α → Option α) (l : List α)
    (h : ∀ a ∈ l, f a = some a) : l.filterMap f = l := by
  induction l with
  | nil => rfl
  | cons a t ih =>
    rw [List.filterMap_cons, h a (List.mem_cons_self a t),
      ih (fun x hx => h x (List.mem_cons_of_mem a hx))]

/-- Lemma: `List.find?` returns the first match: a witness index before which every
element fails the predicate. -/
theorem find?_first_index {α : Type} {p : α → Bool} {l : List α} {d : α}
    (h : l.find? p = some d) :
    ∃ j, l.get? j = some d ∧ p d = true ∧
      ∀ i x, i < j → l.get? i = some x → p x = false := by
  induction l with
  | nil => simp [List.find?] at h
  | cons a t ih =>
    cases hpa : p a with
    | true =>
      rw [List.find?_cons_of_pos _ hpa] at h
      obtain rfl : a = d := Option.some_inj.mp h
      exact ⟨0, rfl, hpa, fun i x hi _ => absurd hi (Nat.not_lt_zero i)⟩
    | false =>
      rw [List.find?_cons_of_neg _ (by simp [hpa])] at h
      obtain ⟨j, hj, hpd, hbefore⟩ := ih h
      refine ⟨j + 1, by simpa using hj, hpd, ?_⟩
      intro i x hi hx
      cases i with
      | zero =>
        simp only [List.get?] at hx
        cases hx; exact hpa
      | succ i' =>
        exact hbefore i' x (Nat.lt_of_succ_lt_succ hi) (by simpa using hx)



/-! ## Claims about selection state and the URL encoding -/

/-- Claim C7: for every selection list and every new repository reference,
`add` rejects as a no-op with the user-visible message "Repository already
added" (the selection is not touched) whenever the reference
case-insensitively duplicates an existing entry's `(owner, name)` pair, and
otherwise appends it to the end of the list; in particular adding `A/B`
then `a/b` leaves the list at length 1. -/
theorem add_dedup_spec :
    (∀ repos parsed, (∃ r ∈ repos,
        lowerStr r.owner = lowerStr parsed.owner ∧
        lowerStr r.name = lowerStr parsed.name) →
      handleAdd repos parsed = .rejected ("Repository already added".toList)) ∧
    (∀ repos parsed, (∀ r ∈ repos,
        lowerStr r.owner ≠ lowerStr parsed.owner ∨
        lowerStr r.name ≠ lowerStr parsed.name) →
      handleAdd repos parsed = .added (repos ++ [parsed])) ∧
    handleAdd [] ⟨"A".toList, "B".toList⟩ =
      .added [⟨"A".toList, "B".toList⟩] ∧
    handleAdd [⟨"A".toList, "B".toList⟩] ⟨"a".toList, "b".toList⟩ =
      .rejected ("Repository already added".toList) := by
  refine ⟨?_, ?_, by decide, by decide⟩
  · intro repos parsed ⟨r, hr, ho, hn⟩
    have hdup : isDuplicate repos parsed = true := by
      unfold isDuplicate
      rw [List.any_eq_true]
      exact ⟨r, hr, by simp [ho, hn]⟩
    simp [handleAdd, hdup]
  · intro repos parsed hall
    have hdup : isDuplicate repos parsed = false := by
      unfold isDuplicate
      rw [Bool.eq_false_iff]
      intro hc
      obtain ⟨r, hr, hb⟩ := List.any_eq_true.mp hc
      simp only [Bool.and_eq_true, beq_iff_eq] at hb
      rcases hall r hr with h | h
      · exact h hb.1
      · exact h hb.2
    simp [handleAdd, hdup]

/-- Witness for C7: the concrete duplicate `["A/B"]` + `a/b` is rejected
through the duplicate branch of the theorem. -/
theorem add_dedup_spec_witness :
    handleAdd [⟨"A".toList, "B".toList⟩] ⟨"a".toList, "b".toList⟩ =
      .rejected ("Repository already added".toList) :=
  add_dedup_spec.1 [⟨"A".toList, "B".toList⟩] ⟨"a".toList, "b".toList⟩
    ⟨⟨"A".toList, "B".toList⟩, List.mem_cons_self _ _, by decide, by decide⟩

/-- Counterexample to claim C8 as stated over every list of repository
references: a reference whose owner contains a comma does not survive the
encode/decode round trip. -/
theorem url_roundtrip_counterexample :
    getReposFromUrl (encodeRepos [⟨"a,b".toList, "c".toList⟩]) ≠
      [⟨"a,b".toList, "c".toList⟩] := by decide

/-- Claim C8 (amended): for every ordered list of repository references
whose owners and names are non-empty and free of the separator characters
`/` and `,` — which is every reference the input parser or the URL decoder
can produce — encoding the selection to the `repos` query parameter and
decoding it back reproduces the same ordered list. -/
theorem url_roundtrip_wellformed (repos : List ParsedRepo)
    (h : ∀ r ∈ repos, wellFormedRepo r) :
    getReposFromUrl (encodeRepos repos) = repos := by
  cases repos with
  | nil => rfl
  | cons r rs =>
    have hkey : ∀ x ∈ (r :: rs).map repoKey, ',' ∉ x := by
      intro p hp
      obtain ⟨r', hr', rfl⟩ := List.mem_map.mp hp
      exact comma_not_mem_repoKey r' (h r' hr')
    have hne : joinSep ',' ((r :: rs).map repoKey) ≠ [] :=
      joinSep_cons_ne_nil ',' (repoKey r) (rs.map repoKey) (repoKey_ne_nil r)
    have hemp : (joinSep ',' ((r :: rs).map repoKey)).isEmpty = false := by
      cases hx : (joinSep ',' ((r :: rs).map repoKey)).isEmpty
      · rfl
      · exact absurd (List.isEmpty_iff.mp hx) hne
    show getReposFromUrl (some (joinSep ',' ((r :: rs).map repoKey))) = r :: rs
    simp only [getReposFromUrl]
    rw [hemp]
    simp only [Bool.false_eq_true, if_false]
    rw [splitOnChar_joinSep ',' _ (by simp) hkey, List.filterMap_map]
    exact filterMap_id_of_some _ _ (fun a ha => parseSegment_repoKey a (h a ha))

/-- Witness for C8: a concrete two-element selection round trips. -/
theorem url_roundtrip_wellformed_witness :
    getReposFromUrl (encodeRepos [repoA, repoB]) = [repoA, repoB] :=
  url_roundtrip_wellformed [repoA, repoB] (by decide)

/-- Claim C10: decoding the `repos` query parameter performs no duplicate
check and no case normalization — `a/b,A/B` yields both entries verbatim
even though `add` would reject the second — and malformed segments
(missing owner or name) are silently dropped, with components after the
first two slash-separated parts discarded. -/
theorem url_decode_no_dedup_drops_malformed :
    getReposFromUrl (some ("a/b,A/B".toList)) =
      [⟨"a".toList, "b".toList⟩, ⟨"A".toList, "B".toList⟩] ∧
    isDuplicate [⟨"a".toList, "b".toList⟩] ⟨"A".toList, "B".toList⟩ = true ∧
    handleAdd [⟨"a".toList, "b".toList⟩] ⟨"A".toList, "B".toList⟩ =
      .rejected ("Repository already added".toList) ∧
    getReposFromUrl (some ("a/b,x,/y,z/,c/d/e".toList)) =
      [⟨"a".toList, "b".toList⟩, ⟨"c".toList, "d".toList⟩] := by decide

/-! ## Claims about the series aligners -/

theorem commitChartData_axis (repos : List ParsedRepo)
    {st : List (Str × FetchEntry CommitWeek)} {activity : List CommitWeek}
    (hb : baseSeries st = some activity) :
    (commitChartData repos st).map (·.weekTimestamp) = activity.map (·.week) := by
  simp only [commitChartData, hb, List.map_map]
  show List.map ((fun w : CommitWeek => w.week) ∘ Prod.snd) activity.enum =
    List.map (·.week) activity
  rw [← List.map_map, List.enum_map_snd]

theorem contributorsChartData_axis (repos : List ParsedRepo)
    {st : List (Str × FetchEntry ContribWeek)} {data : List ContribWeek}
    (hb : baseSeries st = some data) :
    (contributorsChartData repos st).map (·.weekTimestamp) =
      (data.drop (data.length - 52)).map (·.week) := by
  simp only [contributorsChartData, hb, List.map_map]
  rfl

theorem issuesChartData_axis (repos : List ParsedRepo)
    {st : List (Str × IssuesEntry)} {series : List IssueWeek}
    (hb : issuesBaseSeries st = some series) :
    (issuesChartData repos st).map (·.weekTimestamp) = series.map (·.week) := by
  simp only [issuesChartData, hb, List.map_map]
  rfl

/-- Counterexample to claim C4 as stated: handed a base series of 53
entries, `CommitChart`'s transform produces 53 rows — it performs no
52-entry truncation of its own (only `ContributorsChart` slices). -/
theorem commit_no_truncation_counterexample :
    (commitChartData [repoA]
      [(repoKey repoA,
        ⟨repoA, some ((List.range 53).map (fun i => ⟨i, Int.ofNat i⟩)),
          none, false, false⟩)]).length = 53 := by decide

/-- Claim C4 (amended): the contributors chart truncates the base series
to its last 52 entries before generating rows, so its merged dataset
covers at most 52 entries; the commit chart generates one row per
base-series entry with no chart-level truncation (the 52-entry bound of
its axis relies on the client pre-truncating the series); issue-derived
series are never truncated. -/
theorem chart_truncation_policy :
    (∀ repos (st : List (Str × FetchEntry ContribWeek)) data,
      baseSeries st = some data →
      (contributorsChartData repos st).map (·.weekTimestamp) =
        (data.drop (data.length - 52)).map (·.week) ∧
      (contributorsChartData repos st).length ≤ 52) ∧
    (∀ repos (st : List (Str × FetchEntry CommitWeek)) activity,
      baseSeries st = some activity →
      (commitChartData repos st).map (·.weekTimestamp) =
        activity.map (·.week) ∧
      (commitChartData repos st).length = activity.length) ∧
    (∀ repos (st : List (Str × IssuesEntry)) series,
      issuesBaseSeries st = some series →
      (issuesChartData repos st).map (·.weekTimestamp) =
        series.map (·.week) ∧
      (issuesChartData repos st).length = series.length) := by
  refine ⟨?_, ?_, ?_⟩
  · intro repos st data hb
    have hax := contributorsChartData_axis repos hb
    constructor
    · exact hax
    · have hlen : (contributorsChartData repos st).length =
          (data.drop (data.length - 52)).length := by
        have := congrArg List.length hax
        simpa using this
      rw [hlen, List.length_drop]
      omega
  · intro repos st activity hb
    have hax := commitChartData_axis repos hb
    refine ⟨hax, ?_⟩
    have := congrArg List.length hax
    simpa using this
  · intro repos st series hb
    have hax := issuesChartData_axis repos hb
    refine ⟨hax, ?_⟩
    have := congrArg List.length hax
    simpa using this

/-- Witness for C4: a concrete 3-entry contributor base series passes
through untruncated (3 ≤ 52), and a 2-entry issues base series yields
exactly its own two weeks. -/
theorem chart_truncation_policy_witness :
    (contributorsChartData [repoA]
        [(repoKey repoA, ⟨repoA, some [⟨10, 1⟩, ⟨20, 2⟩, ⟨30, 3⟩], none, false, false⟩)]).length ≤ 52 ∧
    (issuesChartData [repoA]
        [(repoKey repoA, ⟨repoA, some [⟨10, 4⟩, ⟨20, 5⟩], none, false⟩)]).map (·.weekTimestamp) =
      ([⟨10, 4⟩, ⟨20, 5⟩] : List IssueWeek).map (·.week) :=
  ⟨(chart_truncation_policy.1 [repoA]
      [(repoKey repoA, ⟨repoA, some [⟨10, 1⟩, ⟨20, 2⟩, ⟨30, 3⟩], none, false, false⟩)]
      [⟨10, 1⟩, ⟨20, 2⟩, ⟨30, 3⟩] (by decide)).2,
   (chart_truncation_policy.2.2 [repoA]
      [(repoKey repoA, ⟨repoA, some [⟨10, 4⟩, ⟨20, 5⟩], none, false⟩)]
      [⟨10, 4⟩, ⟨20, 5⟩] (by decide)).1⟩

theorem contrib_col_exact_match {repos : List ParsedRepo}
    {st : List (Str × FetchEntry ContribWeek)} {row : ChartPoint}
    {k : Str} {v : Nat}
    (hrow : row ∈ contributorsChartData repos st)
    (hcol : (k, v) ∈ row.cols) :
    ∃ s dp, (lookupA st k).bind (·.data) = some s ∧ dp ∈ s ∧
      dp.week = row.weekTimestamp ∧ v = dp.contributors := by
  cases hb : baseSeries st with
  | none => simp [contributorsChartData, hb] at hrow
  | some data =>
    simp only [contributorsChartData, hb, List.mem_map] at hrow
    obtain ⟨w, hw, rfl⟩ := hrow
    simp only [List.mem_filterMap] at hcol
    obtain ⟨k', hk', hg⟩ := hcol
    split at hg
    · exact absurd hg (by simp)
    · rename_i s hd
      cases hf : s.find? (fun x => x.week == w.week) with
      | none => rw [hf] at hg; simp at hg
      | some dp =>
        rw [hf] at hg
        simp only [Option.map_some', Option.some.injEq, Prod.mk.injEq] at hg
        obtain ⟨rfl, rfl⟩ := hg
        refine ⟨s, dp, hd, List.mem_of_find?_eq_some hf, ?_, rfl⟩
        have := List.find?_some hf
        simpa [beq_iff_eq] using this

theorem issues_col_match_or_zero {repos : List ParsedRepo}
    {st : List (Str × IssuesEntry)} {row : ChartPoint}
    {k : Str} {v : Nat}
    (hrow : row ∈ issuesChartData repos st)
    (hcol : (k, v) ∈ row.cols) :
    ∃ s, (lookupA st k).bind (·.data) = some s ∧
      ((∃ dp ∈ s, dp.week = row.weekTimestamp ∧ v = dp.issues) ∨
       ((∀ dp ∈ s, dp.week ≠ row.weekTimestamp) ∧ v = 0)) := by
  cases hb : issuesBaseSeries st with
  | none => simp [issuesChartData, hb] at hrow
  | some series =>
    simp only [issuesChartData, hb, List.mem_map] at hrow
    obtain ⟨w, hw, rfl⟩ := hrow
    simp only [List.mem_filterMap] at hcol
    obtain ⟨k', hk', hg⟩ := hcol
    split at hg
    · exact absurd hg (by simp)
    · rename_i s hd
      simp only [Option.some.injEq, Prod.mk.injEq] at hg
      obtain ⟨rfl, rfl⟩ := hg
      refine ⟨s, hd, ?_⟩
      cases hf : s.find? (fun x => x.week == w.week) with
      | none =>
        refine Or.inr ⟨?_, rfl⟩
        intro dp hdp
        have := List.find?_eq_none.mp hf dp hdp
        simpa [beq_iff_eq] using this
      | some dp =>
        refine Or.inl ⟨dp, List.mem_of_find?_eq_some hf, ?_, rfl⟩
        have := List.find?_some hf
        simpa [beq_iff_eq] using this

theorem commit_col_positional {repos : List ParsedRepo}
    {st : List (Str × FetchEntry CommitWeek)} {i : Nat} {row : ChartPoint}
    {k : Str} {v : Nat}
    (hrow : (commitChartData repos st).get? i = some row)
    (hcol : (k, v) ∈ row.cols) :
    ∃ s dp, (lookupA st k).bind (·.data) = some s ∧
      s.get? i = some dp ∧ v = dp.total := by
  cases hb : baseSeries st with
  | none => simp [commitChartData, hb] at hrow
  | some activity =>
    simp only [commitChartData, hb] at hrow
    rw [List.get?_map] at hrow
    cases he : activity.enum.get? i with
    | none => rw [he] at hrow; simp at hrow
    | some p =>
      rw [he] at hrow
      have he2 := List.enum_get? activity i
      rw [he] at he2
      cases ha : activity.get? i with
      | none => rw [ha] at he2; simp at he2
      | some a =>
        rw [ha] at he2
        simp only [Option.map_some', Option.some.injEq] at he2
        subst he2
        simp only [Option.map_some', Option.some.injEq] at hrow
        subst hrow
        simp only [List.mem_filterMap] at hcol
        obtain ⟨k', hk', hg⟩ := hcol
        split at hg
        · exact absurd hg (by simp)
        · rename_i s hd
          cases hdw : s.get? i with
          | none => rw [hdw] at hg; simp at hg
          | some dw =>
            rw [hdw] at hg
            simp only [Option.map_some', Option.some.injEq, Prod.mk.injEq] at hg
            obtain ⟨rfl, rfl⟩ := hg
            exact ⟨s, dw, hd, hdw, rfl⟩

/-- Counterexample to claim C2: in the commit chart, repo B's column in
the row whose base timestamp is 10 holds 7 — the value of B's series entry
at position 0 (week 100) — although B's series has no point with week 10.
The commit chart fills columns by positional index, not by exact
timestamp lookup. -/
theorem commit_value_not_timestamp_matched :
    (commitChartData [repoA, repoB]
      [(repoKey repoA, ⟨repoA, some [⟨1, 10⟩, ⟨2, 20⟩], none, false, false⟩),
       (repoKey repoB, ⟨repoB, some [⟨7, 100⟩, ⟨8, 200⟩], none, false, false⟩)]).head? =
      some ⟨10, [(repoKey repoA, 1), (repoKey repoB, 7)]⟩ ∧
    (∀ dp ∈ ([⟨7, 100⟩, ⟨8, 200⟩] : List CommitWeek), dp.week ≠ 10) := by
  decide

/-- Claim C2 (amended): the contributors and issues charts fill each
selected repository's column by a lookup whose week timestamp exactly
equals the row's base timestamp in that repository's own series (issues
defaulting to zero when absent), with no interpolation; the commit chart
instead fills the column positionally — row `i` takes the repository's
series entry at index `i` regardless of its timestamp. -/
theorem chart_value_lookup_semantics :
    (∀ repos (st : List (Str × FetchEntry ContribWeek)) row k v,
      row ∈ contributorsChartData repos st → (k, v) ∈ row.cols →
      ∃ s dp, (lookupA st k).bind (·.data) = some s ∧ dp ∈ s ∧
        dp.week = row.weekTimestamp ∧ v = dp.contributors) ∧
    (∀ repos (st : List (Str × IssuesEntry)) row k v,
      row ∈ issuesChartData repos st → (k, v) ∈ row.cols →
      ∃ s, (lookupA st k).bind (·.data) = some s ∧
        ((∃ dp ∈ s, dp.week = row.weekTimestamp ∧ v = dp.issues) ∨
         ((∀ dp ∈ s, dp.week ≠ row.weekTimestamp) ∧ v = 0))) ∧
    (∀ repos (st : List (Str × FetchEntry CommitWeek)) i row k v,
      (commitChartData repos st).get? i = some row → (k, v) ∈ row.cols →
      ∃ s dp, (lookupA st k).bind (·.data) = some s ∧
        s.get? i = some dp ∧ v = dp.total) :=
  ⟨fun _ _ _ _ _ hrow hcol => contrib_col_exact_match hrow hcol,
   fun _ _ _ _ _ hrow hcol => issues_col_match_or_zero hrow hcol,
   fun _ _ _ _ _ _ hrow hcol => commit_col_positional hrow hcol⟩

/-- Witness for C2: in a one-repository contributors chart the single
column value 9 is backed by the exact-match data point at week 100. -/
theorem chart_value_lookup_semantics_witness :
    ∃ s dp,
      (lookupA [(repoKey repoA,
          (⟨repoA, some [⟨100, 9⟩], none, false, false⟩ : FetchEntry ContribWeek))]
        (repoKey repoA)).bind (·.data) = some s ∧ dp ∈ s ∧
      dp.week = (⟨100, [(repoKey repoA, 9)]⟩ : ChartPoint).weekTimestamp ∧
      9 = dp.contributors :=
  chart_value_lookup_semantics.1 [repoA]
    [(repoKey repoA, ⟨repoA, some [⟨100, 9⟩], none, false, false⟩)]
    ⟨100, [(repoKey repoA, 9)]⟩ (repoKey repoA) 9 (by decide) (by decide)

theorem issues_col_default_zero {repos : List ParsedRepo}
    {st : List (Str × IssuesEntry)} {row : ChartPoint} {k : Str}
    {s : List IssueWeek}
    (hrow : row ∈ issuesChartData repos st)
    (hk : k ∈ repos.map repoKey)
    (hd : (lookupA st k).bind (·.data) = some s)
    (hnone : ∀ dp ∈ s, dp.week ≠ row.weekTimestamp) :
    (k, 0) ∈ row.cols := by
  cases hb : issuesBaseSeries st with
  | none => simp [issuesChartData, hb] at hrow
  | some series =>
    simp only [issuesChartData, hb, List.mem_map] at hrow
    obtain ⟨w, hw, rfl⟩ := hrow
    simp only [List.mem_filterMap]
    refine ⟨k, hk, ?_⟩
    split
    · rename_i hn
      rw [hd] at hn
      exact absurd hn (by simp)
    · rename_i s' hs'
      rw [hd] at hs'
      obtain rfl : s = s' := Option.some_inj.mp hs'
      have hf : s.find? (fun x => x.week == w.week) = none := by
        rw [List.find?_eq_none]
        intro x hx
        simp only [beq_iff_eq]
        exact hnone x hx
      rw [hf]
      rfl

theorem contrib_col_absent_without_match {repos : List ParsedRepo}
    {st : List (Str × FetchEntry ContribWeek)} {row : ChartPoint} {k : Str}
    {s : List ContribWeek}
    (hrow : row ∈ contributorsChartData repos st)
    (hd : (lookupA st k).bind (·.data) = some s)
    (hnone : ∀ dp ∈ s, dp.week ≠ row.weekTimestamp) :
    ∀ v, (k, v) ∉ row.cols := by
  intro v hmem
  obtain ⟨s', dp, hd', hdp, hweek, _⟩ := contrib_col_exact_match hrow hmem
  rw [hd] at hd'
  obtain rfl : s = s' := Option.some_inj.mp hd'
  exact hnone dp hdp hweek

theorem commit_col_present_at_index {repos : List ParsedRepo}
    {st : List (Str × FetchEntry CommitWeek)} {i : Nat} {row : ChartPoint}
    {k : Str} {s : List CommitWeek}
    (hrow : (commitChartData repos st).get? i = some row)
    (hk : k ∈ repos.map repoKey)
    (hd : (lookupA st k).bind (·.data) = some s) :
    ∀ dp, s.get? i = some dp → (k, dp.total) ∈ row.cols := by
  intro dp hdp
  cases hb : baseSeries st with
  | none => simp [commitChartData, hb] at hrow
  | some activity =>
    simp only [commitChartData, hb] at hrow
    rw [List.get?_map] at hrow
    cases he : activity.enum.get? i with
    | none => rw [he] at hrow; simp at hrow
    | some p =>
      rw [he] at hrow
      have he2 := List.enum_get? activity i
      rw [he] at he2
      cases ha : activity.get? i with
      | none => rw [ha] at he2; simp at he2
      | some a =>
        rw [ha] at he2
        simp only [Option.map_some', Option.some.injEq] at he2
        subst he2
        simp only [Option.map_some', Option.some.injEq] at hrow
        subst hrow
        simp only [List.mem_filterMap]
        refine ⟨k, hk, ?_⟩
        split
        · rename_i hn
          rw [hd] at hn
          exact absurd hn (by simp)
        · rename_i s' hs'
          rw [hd] at hs'
          obtain rfl : s = s' := Option.some_inj.mp hs'
          have hdp' : s.get? (i, a).1 = some dp := hdp
          rw [hdp']
          rfl

theorem commit_col_absent_past_end {repos : List ParsedRepo}
    {st : List (Str × FetchEntry CommitWeek)} {i : Nat} {row : ChartPoint}
    {k : Str} {s : List CommitWeek}
    (hrow : (commitChartData repos st).get? i = some row)
    (hd : (lookupA st k).bind (·.data) = some s)
    (hno : s.get? i = none) :
    ∀ v, (k, v) ∉ row.cols := by
  intro v hmem
  obtain ⟨s', dw, hd', hdw, _⟩ := commit_col_positional hrow hmem
  rw [hd] at hd'
  obtain rfl : s = s' := Option.some_inj.mp hd'
  rw [hno] at hdw
  exact Option.noConfusion hdw

/-- Counterexample to claim C6: in the commit chart, the row with base
timestamp 1 carries a column for repo B with value 42 although B's series
has no point whose week is 1 — a missing exact-timestamp match does not
leave the commit column absent; presence is decided by positional index. -/
theorem commit_column_present_without_match :
    commitChartData [repoA, repoB]
      [(repoKey repoA, ⟨repoA, some [⟨5, 1⟩], none, false, false⟩),
       (repoKey repoB, ⟨repoB, some [⟨42, 99⟩], none, false, false⟩)] =
      [⟨1, [(repoKey repoA, 5), (repoKey repoB, 42)]⟩] ∧
    (∀ dp ∈ ([⟨42, 99⟩] : List CommitWeek), dp.week ≠ 1) := by decide

/-- Claim C6 (amended): for every row and every selected repository that
has produced a series, a missing exact-timestamp match defaults the
repository's cell to zero for issues metrics and leaves the column absent
for contributor metrics; for the commit metric the column is instead
present exactly when the repository's series has an entry at the row's
positional index, with that entry's total as value, regardless of
timestamps. -/
theorem missing_match_policy :
    (∀ repos (st : List (Str × IssuesEntry)) row k s,
      row ∈ issuesChartData repos st → k ∈ repos.map repoKey →
      (lookupA st k).bind (·.data) = some s →
      (∀ dp ∈ s, dp.week ≠ row.weekTimestamp) → (k, 0) ∈ row.cols) ∧
    (∀ repos (st : List (Str × FetchEntry ContribWeek)) row k s,
      row ∈ contributorsChartData repos st →
      (lookupA st k).bind (·.data) = some s →
      (∀ dp ∈ s, dp.week ≠ row.weekTimestamp) →
      ∀ v, (k, v) ∉ row.cols) ∧
    (∀ repos (st : List (Str × FetchEntry CommitWeek)) i row k s,
      (commitChartData repos st).get? i = some row →
      (lookupA st k).bind (·.data) = some s →
      ((k ∈ repos.map repoKey →
          ∀ dp, s.get? i = some dp → (k, dp.total) ∈ row.cols) ∧
       (s.get? i = none → ∀ v, (k, v) ∉ row.cols))) :=
  ⟨fun _ _ _ _ _ hrow hk hd hnone =>
      issues_col_default_zero hrow hk hd hnone,
   fun _ _ _ _ _ hrow hd hnone => contrib_col_absent_without_match hrow hd hnone,
   fun _ _ _ _ _ _ hrow hd =>
      ⟨fun hk => commit_col_present_at_index hrow hk hd,
       fun hno => commit_col_absent_past_end hrow hd hno⟩⟩

/-- Witness for C6: a repository whose produced issues series is empty has
no match for the base week 10, and its cell defaults to zero. -/
theorem missing_match_policy_witness :
    ((repoKey repoB, 0) ∈
      (⟨10, [(repoKey repoA, 4), (repoKey repoB, 0)]⟩ : ChartPoint).cols) :=
  missing_match_policy.1 [repoA, repoB]
    [(repoKey repoA, ⟨repoA, some [⟨10, 4⟩], none, false⟩),
     (repoKey repoB, ⟨repoB, some [], none, false⟩)]
    ⟨10, [(repoKey repoA, 4), (repoKey repoB, 0)]⟩ (repoKey repoB) []
    (by decide) (by decide) (by decide) (by decide)

theorem find?_aligned_first {β : Type} {repos : List ParsedRepo}
    {st : List (Str × β)} {pred : β → Bool} {d : β}
    (halign : st.map Prod.fst = repos.map repoKey)
    (hf : (st.map Prod.snd).find? pred = some d) :
    ∃ j r, repos.get? j = some r ∧ st.get? j = some (repoKey r, d) ∧
      pred d = true ∧
      ∀ i e, i < j → st.get? i = some e → pred e.2 = false := by
  obtain ⟨j, hj, hpd, hbefore⟩ := find?_first_index hf
  rw [List.get?_map] at hj
  cases hsj : st.get? j with
  | none => rw [hsj] at hj; exact absurd hj (by simp)
  | some e =>
    rw [hsj] at hj
    simp only [Option.map_some', Option.some.injEq] at hj
    have hlen : st.length = repos.length := by
      have h1 := congrArg List.length halign
      simpa using h1
    have hjlt : j < st.length := by
      rcases Nat.lt_or_ge j st.length with h | h
      · exact h
      · have h0 := List.get?_eq_none.mpr h
        rw [h0] at hsj
        cases hsj
    cases hrj : repos.get? j with
    | none =>
      have := List.get?_eq_none.mp hrj
      omega
    | some r =>
      have hfst := congrArg (fun l => l.get? j) halign
      simp only [List.get?_map, hsj, hrj, Option.map_some', Option.some.injEq]
        at hfst
      obtain ⟨e1, e2⟩ := e
      simp only at hj hfst
      subst hj
      subst hfst
      refine ⟨j, r, hrj, hsj, hpd, ?_⟩
      intro i e' hij hie
      exact hbefore i e'.2 hij (by rw [List.get?_map, hie]; rfl)

/-- The trace exhibiting the divergence of `Map` insertion order from
selection order: both repositories are fetched, the selection is emptied
while both requests are still in flight, the stale responses re-insert B's
entry before A's, and both repositories are re-added. -/
def selectionOrderDivergenceTrace : List (OrchEvent CommitWeek) :=
  [.reposChange [repoA, repoB], .reposChange [],
   .result 1 (.ok [⟨2, 22⟩]), .result 0 (.ok [⟨1, 11⟩]),
   .reposChange [repoA, repoB]]

/-- Counterexample to claim C5: a reachable state in which the first
repository in selection order (`repoA`) is Ready with the non-empty series
`[week 11]`, yet the merged dataset's axis is `[22]` — the series of
`repoB`, which merely precedes A in the map's insertion order. -/
theorem base_not_first_in_selection_counterexample :
    (orchExec selectionOrderDivergenceTrace).selection = [repoA, repoB] ∧
    lookupA (orchExec selectionOrderDivergenceTrace).repoData (repoKey repoA) =
      some ⟨repoA, some [⟨1, 11⟩], none, false, false⟩ ∧
    (commitChartData (orchExec selectionOrderDivergenceTrace).selection
        (orchExec selectionOrderDivergenceTrace).repoData).map (·.weekTimestamp) =
      [22] ∧
    ¬ ((commitChartData (orchExec selectionOrderDivergenceTrace).selection
          (orchExec selectionOrderDivergenceTrace).repoData).map (·.weekTimestamp) =
        ([⟨1, 11⟩] : List CommitWeek).map (·.week)) := by decide

/-- A two-repository Ready state used in the removal scenario. -/
def stReadyAB : List (Str × FetchEntry CommitWeek) :=
  [(repoKey repoA, ⟨repoA, some [⟨1, 11⟩], none, false, false⟩),
   (repoKey repoB, ⟨repoB, some [⟨2, 22⟩], none, false, false⟩)]

/-- Claim C5 (amended): the base series is that of the first entry **in
the state map's insertion order** holding a non-empty series; whenever
the tracked keys equal the selection keys in order (the intended binding
invariant), that is exactly the first repository in selection order that
is Ready with a non-empty series; if no entry holds a non-empty series
the merged dataset is empty; and removing the only repository with data
makes the next data-holding entry the base, or yields empty output when
none remain. -/
theorem base_selection_rule :
    (∀ repos (st : List (Str × FetchEntry CommitWeek)),
      (∀ e ∈ st, hasData e.2 = false) → commitChartData repos st = []) ∧
    (∀ repos (st : List (Str × IssuesEntry)),
      (∀ e ∈ st, issuesHasData e.2 = false) → issuesChartData repos st = []) ∧
    (∀ repos (st : List (Str × FetchEntry CommitWeek)) d,
      st.map Prod.fst = repos.map repoKey →
      (st.map Prod.snd).find? hasData = some d →
      ∃ j r a, repos.get? j = some r ∧ st.get? j = some (repoKey r, d) ∧
        d.data = some a ∧ a ≠ [] ∧
        (∀ i e, i < j → st.get? i = some e → hasData e.2 = false) ∧
        (commitChartData repos st).map (·.weekTimestamp) = a.map (·.week)) ∧
    (∀ repos (st : List (Str × IssuesEntry)) d,
      st.map Prod.fst = repos.map repoKey →
      (st.map Prod.snd).find? issuesHasData = some d →
      ∃ j r a, repos.get? j = some r ∧ st.get? j = some (repoKey r, d) ∧
        d.data = some a ∧ a ≠ [] ∧
        (∀ i e, i < j → st.get? i = some e → issuesHasData e.2 = false) ∧
        (issuesChartData repos st).map (·.weekTimestamp) = a.map (·.week)) ∧
    ((commitChartData
        (reposChange (⟨stReadyAB, [], [], [repoA, repoB]⟩ : OrchState CommitWeek)
          [repoB]).selection
        (reposChange (⟨stReadyAB, [], [], [repoA, repoB]⟩ : OrchState CommitWeek)
          [repoB]).repoData).map (·.weekTimestamp) = [22] ∧
     commitChartData
        (reposChange (reposChange
            (⟨stReadyAB, [], [], [repoA, repoB]⟩ : OrchState CommitWeek)
          [repoB]) []).selection
        (reposChange (reposChange
            (⟨stReadyAB, [], [], [repoA, repoB]⟩ : OrchState CommitWeek)
          [repoB]) []).repoData = []) := by
  refine ⟨?_, ?_, ?_, ?_, by decide⟩
  · intro repos st hall
    have hfind : (st.map Prod.snd).find? hasData = none := by
      rw [List.find?_eq_none]
      intro x hx
      obtain ⟨e, he, rfl⟩ := List.mem_map.mp hx
      simp [hall e he]
    have hb : baseSeries st = none := by
      unfold baseSeries
      rw [hfind]
      rfl
    simp [commitChartData, hb]
  · intro repos st hall
    have hfind : (st.map Prod.snd).find? issuesHasData = none := by
      rw [List.find?_eq_none]
      intro x hx
      obtain ⟨e, he, rfl⟩ := List.mem_map.mp hx
      simp [hall e he]
    have hb : issuesBaseSeries st = none := by
      unfold issuesBaseSeries
      rw [hfind]
      rfl
    simp [issuesChartData, hb]
  · intro repos st d halign hf
    obtain ⟨j, r, hrj, hsj, hpd, hbefore⟩ := find?_aligned_first halign hf
    cases ha : d.data with
    | none => rw [hasData, ha] at hpd; cases hpd
    | some a =>
      have hane : a ≠ [] := by
        rw [hasData, ha] at hpd
        simp only [Bool.not_eq_true'] at hpd
        intro hnil
        rw [hnil] at hpd
        cases hpd
      have hb : baseSeries st = some a := by
        unfold baseSeries
        rw [hf]
        exact ha
      exact ⟨j, r, a, hrj, hsj, rfl, hane,
        hbefore, commitChartData_axis repos hb⟩
  · intro repos st d halign hf
    obtain ⟨j, r, hrj, hsj, hpd, hbefore⟩ := find?_aligned_first halign hf
    cases ha : d.data with
    | none => rw [issuesHasData, ha] at hpd; cases hpd
    | some a =>
      have hane : a ≠ [] := by
        rw [issuesHasData, ha] at hpd
        simp only [Bool.not_eq_true'] at hpd
        intro hnil
        rw [hnil] at hpd
        cases hpd
      have hb : issuesBaseSeries st = some a := by
        unfold issuesBaseSeries
        rw [hf]
        exact ha
      exact ⟨j, r, a, hrj, hsj, rfl, hane,
        hbefore, issuesChartData_axis repos hb⟩

/-- Witness for C5: on the aligned two-repository Ready state, the base is
repo A at index 0 and the axis is its series' weeks. -/
theorem base_selection_rule_witness :
    ∃ j r a, [repoA, repoB].get? j = some r ∧
      stReadyAB.get? j = some (repoKey r,
        (⟨repoA, some [⟨1, 11⟩], none, false, false⟩ : FetchEntry CommitWeek)) ∧
      (⟨repoA, some [⟨1, 11⟩], none, false, false⟩ : FetchEntry CommitWeek).data =
        some a ∧ a ≠ [] ∧
      (∀ i e, i < j → stReadyAB.get? i = some e → hasData e.2 = false) ∧
      (commitChartData [repoA, repoB] stReadyAB).map (·.weekTimestamp) =
        a.map (·.week) :=
  base_selection_rule.2.2.1 [repoA, repoB] stReadyAB
    ⟨repoA, some [⟨1, 11⟩], none, false, false⟩ (by decide) (by decide)

/-! ## Claims about the fetch orchestrators -/

/-- One poll cycle for `repoA` after its initial fetch: the in-flight
request rejects with `StatsComputingError`, then the retry timer fires. -/
def pollCycleEvents (α : Type) : List (OrchEvent α) :=
  [.result 0 .computingErr, .timerFire (repoKey repoA)]

/-- A fetch of `repoA` followed by `n` poll cycles. -/
def pollLoopTrace (α : Type) (n : Nat) : List (OrchEvent α) :=
  OrchEvent.reposChange [repoA] :: (List.replicate n (pollCycleEvents α)).flatten

/-- The loop state: `repoA` in the Computing display state, one request in
flight, no pending timer (it just fired). -/
def pollFixState (α : Type) : OrchState α :=
  ⟨[(repoKey repoA, ⟨repoA, none, none, false, true⟩)], [],
   [(repoKey repoA, repoA)], [repoA]⟩

theorem orchExec_append {α : Type} (t u : List (OrchEvent α)) :
    orchExec (t ++ u) = u.foldl orchStep (orchExec t) :=
  List.foldl_append _ _ _ _

theorem pollLoopTrace_succ (α : Type) (n : Nat) :
    pollLoopTrace α (n + 1) = pollLoopTrace α n ++ pollCycleEvents α := by
  simp [pollLoopTrace, List.replicate_succ', List.flatten_append]

theorem pollLoop_reaches_fix {α : Type} (n : Nat) :
    orchExec (pollLoopTrace α (n + 1)) = pollFixState α := by
  induction n with
  | zero => rfl
  | succ m ih =>
    rw [pollLoopTrace_succ, orchExec_append, ih]
    rfl

/-- Claim C3: a repository whose fetch rejects with the distinguished
`StatsComputingError` is moved to the Computing display state and the
client is re-invoked after exactly one poll interval (`POLL_INTERVAL_MS`),
repeating indefinitely — after any number of cycles the repository is
still Computing with a request in flight — until the client resolves with
a series (stored as Ready, timer cleared) or rejects with a
non-`StatsComputingError` error (message stored for display, no timer
scheduled, no automatic retry). -/
theorem computing_poll_loop {α : Type} (n : Nat) (series : List α) (msg : Str) :
    lookupA (orchExec (pollLoopTrace α (n + 1))).repoData (repoKey repoA) =
      some ⟨repoA, none, none, false, true⟩ ∧
    (orchExec (pollLoopTrace α (n + 1))).inFlight = [(repoKey repoA, repoA)] ∧
    (orchStep (orchExec (pollLoopTrace α (n + 1)))
        (.result 0 .computingErr)).repoData =
      [(repoKey repoA, ⟨repoA, none, none, false, true⟩)] ∧
    (orchStep (orchExec (pollLoopTrace α (n + 1)))
        (.result 0 .computingErr)).pollTimers =
      [(repoKey repoA, repoA, POLL_INTERVAL_MS)] ∧
    orchStep (orchExec (pollLoopTrace α (n + 1))) (.result 0 (.ok series)) =
      ⟨[(repoKey repoA, ⟨repoA, some series, none, false, false⟩)],
        [], [], [repoA]⟩ ∧
    orchStep (orchExec (pollLoopTrace α (n + 1))) (.result 0 (.hardErr msg)) =
      ⟨[(repoKey repoA, ⟨repoA, none, some msg, false, false⟩)],
        [], [], [repoA]⟩ := by
  rw [pollLoop_reaches_fix]
  exact ⟨rfl, rfl, rfl, rfl, rfl, rfl⟩

/-- The trace in which `repoA`'s fetch fails hard and the next
reconciliation pass runs with `repoA` still selected. -/
def failedRefetchTrace : List (OrchEvent CommitWeek) :=
  [.reposChange [repoA], .result 0 (.hardErr ("boom".toList)),
   .reposChange [repoA]]

/-- Counterexample to claim C9: after a hard failure the repository is
still present in tracked state (its Failed entry), yet the next
reconciliation pass issues a fresh fetch for it — so it is not the case
that only repositories absent from the tracked state re-fetch. -/
theorem failed_entry_refetch_counterexample :
    lookupA (orchExec (failedRefetchTrace.take 2)).repoData (repoKey repoA) =
      some ⟨repoA, none, some ("boom".toList), false, false⟩ ∧
    (orchExec failedRefetchTrace).inFlight = [(repoKey repoA, repoA)] ∧
    lookupA (orchExec failedRefetchTrace).repoData (repoKey repoA) =
      some ⟨repoA, none, none, true, false⟩ := by decide

theorem fetchGuard_some {α : Type} {s : OrchState α} {k : Str}
    {e : FetchEntry α} (hl : lookupA s.repoData k = some e) :
    fetchGuardPasses s k = !(shouldSkip e) := by
  unfold fetchGuardPasses
  split
  · rename_i e' hs
    rw [hl] at hs
    obtain rfl : e = e' := Option.some_inj.mp hs
    rfl
  · rename_i hn
    rw [hl] at hn
    cases hn

theorem foldl_fetchRepoStep_inFlight {α : Type} (l : List ParsedRepo)
    (s : OrchState α) :
    (l.foldl (fun acc repo => fetchRepoStep acc repo false) s).inFlight =
      s.inFlight ++ l.map (fun r => (repoKey r, r)) := by
  induction l generalizing s with
  | nil => simp
  | cons r t ih =>
    rw [List.foldl_cons, ih]
    simp [fetchRepoStep]

theorem reposChange_inFlight {α : Type} (s : OrchState α)
    (repos : List ParsedRepo) :
    (reposChange s repos).inFlight =
      s.inFlight ++
        (repos.filter (fun repo => fetchGuardPasses s (repoKey repo))).map
          (fun r => (repoKey r, r)) := by
  simp only [reposChange]
  rw [foldl_fetchRepoStep_inFlight]

theorem issuesFoldl_keyfree (l : List ParsedRepo) (s : IssuesState) (k : Str)
    (hl : ∀ r ∈ l, repoKey r ≠ k) :
    ∃ new, (l.foldl issuesFetchStep s).inFlight = s.inFlight ++ new ∧
      ∀ q ∈ new, q.1 ≠ k := by
  induction l generalizing s with
  | nil => exact ⟨[], by simp, by simp⟩
  | cons r t ih =>
    rw [List.foldl_cons]
    obtain ⟨new, hnew, hfree⟩ := ih (issuesFetchStep s r)
      (fun r' hr' => hl r' (List.mem_cons_of_mem _ hr'))
    by_cases hc : s.fetchedRepos.contains (repoKey r) = true
    · have hstep : issuesFetchStep s r = s := by
        simp only [issuesFetchStep, if_pos hc]
      rw [hstep] at hnew
      rw [hstep]
      exact ⟨new, hnew, hfree⟩
    · have hstep : (issuesFetchStep s r).inFlight =
          s.inFlight ++ [(repoKey r, r)] := by
        simp only [issuesFetchStep, if_neg hc]
      rw [hstep] at hnew
      refine ⟨(repoKey r, r) :: new, by rw [hnew]; simp, ?_⟩
      intro q hq
      rcases List.mem_cons.mp hq with rfl | hqt
      · exact hl r (List.mem_cons_self _ _)
      · exact hfree q hqt

/-- Claim C9 (amended): in the stats orchestrators a repository whose
entry holds a series, is loading or is computing never triggers a
duplicate fetch on a reconciliation pass, but a repository with a Failed
entry — still present in tracked state — does re-fetch; in the issues
orchestrators a repository whose key is present in tracked state (in any
state, Failed included) never re-fetches, so there only absent keys
re-fetch. -/
theorem refetch_guard_policy :
    (∀ (α : Type) (s : OrchState α) repos repo (e : FetchEntry α),
      lookupA s.repoData (repoKey repo) = some e → shouldSkip e = true →
      ∃ newReqs, (reposChange s repos).inFlight = s.inFlight ++ newReqs ∧
        ∀ q ∈ newReqs, q.1 ≠ repoKey repo) ∧
    (∀ (α : Type) (s : OrchState α) repos repo (e : FetchEntry α),
      repo ∈ repos →
      lookupA s.repoData (repoKey repo) = some e → shouldSkip e = false →
      (repoKey repo, repo) ∈
        (repos.filter (fun r => fetchGuardPasses s (repoKey r))).map
          (fun r => (repoKey r, r)) ∧
      (reposChange s repos).inFlight =
        s.inFlight ++
          (repos.filter (fun r => fetchGuardPasses s (repoKey r))).map
            (fun r => (repoKey r, r))) ∧
    (∀ (s : IssuesState) repos repo,
      (lookupA s.repoData (repoKey repo)).isSome = true →
      ∃ newReqs, (issuesReposChange s repos).inFlight = s.inFlight ++ newReqs ∧
        ∀ q ∈ newReqs, q.1 ≠ repoKey repo) := by
  refine ⟨?_, ?_, ?_⟩
  · intro α s repos repo e hl hskip
    refine ⟨_, reposChange_inFlight s repos, ?_⟩
    intro q hq hkey
    obtain ⟨r', hr', rfl⟩ := List.mem_map.mp hq
    rw [List.mem_filter] at hr'
    have hg : fetchGuardPasses s (repoKey r') = true := hr'.2
    have hkey' : repoKey r' = repoKey repo := hkey
    rw [hkey', fetchGuard_some hl, hskip] at hg
    cases hg
  · intro α s repos repo e hrepo hl hskip
    refine ⟨?_, reposChange_inFlight s repos⟩
    apply List.mem_map_of_mem
    rw [List.mem_filter]
    refine ⟨hrepo, ?_⟩
    rw [fetchGuard_some hl, hskip]
    rfl
  · intro s repos repo hsome
    have hkeys : ∀ r ∈ repos.filter
        (fun r => (lookupA s.repoData (repoKey r)).isNone),
        repoKey r ≠ repoKey repo := by
      intro r hr hkey
      rw [List.mem_filter] at hr
      have hn := hr.2
      rw [hkey] at hn
      rw [Option.isNone_iff_eq_none] at hn
      rw [hn] at hsome
      cases hsome
    obtain ⟨new, hnew, hfree⟩ := issuesFoldl_keyfree _ s _ hkeys
    refine ⟨new, ?_, hfree⟩
    simp only [issuesReposChange]
    exact hnew

/-- Witness for C9: a loading entry for `repoA` blocks a duplicate fetch
on a pass that still selects it — the pass issues no new request keyed to
`repoA`. -/
theorem refetch_guard_policy_witness :
    ∃ newReqs,
      (reposChange
        (⟨[(repoKey repoA, ⟨repoA, none, none, true, false⟩)], [],
          [(repoKey repoA, repoA)], [repoA]⟩ : OrchState CommitWeek)
        [repoA]).inFlight =
        [(repoKey repoA, repoA)] ++ newReqs ∧
      ∀ q ∈ newReqs, q.1 ≠ repoKey repoA :=
  refetch_guard_policy.1 CommitWeek
    ⟨[(repoKey repoA, ⟨repoA, none, none, true, false⟩)], [],
      [(repoKey repoA, repoA)], [repoA]⟩
    [repoA] repoA ⟨repoA, none, none, true, false⟩ (by decide) (by decide)

/-- Removing `repoA` while its only fetch is in flight, then letting the
response arrive. -/
def staleOkTrace : List (OrchEvent CommitWeek) :=
  [.reposChange [repoA], .reposChange [], .result 0 (.ok [⟨1, 11⟩])]

/-- The same removal race, with the stale response being the
`StatsComputingError` rejection. -/
def staleComputingTrace : List (OrchEvent CommitWeek) :=
  [.reposChange [repoA], .reposChange [], .result 0 .computingErr]

/-- Claim C1, evaluated at its failing input: `repoA` is removed while its
fetch is in flight.  The reconciliation pass does delete the state entry,
but the unguarded `.then`/`.catch` callbacks later run anyway: the stale
success re-inserts a state entry for the removed repository (tracked keys
`[a/x]` against the empty selection), the stale `StatsComputingError`
rejection schedules a retry timer for it, and that timer's firing issues a
further fetch — contradicting the claim that no stale response is applied
and no further callback executes for a removed repository. -/
theorem stale_response_reapplied :
    (orchExec (staleOkTrace.take 2)).repoData = [] ∧
    (orchExec staleOkTrace).selection = [] ∧
    (orchExec staleOkTrace).repoData =
      [(repoKey repoA, ⟨repoA, some [⟨1, 11⟩], none, false, false⟩)] ∧
    (orchExec staleComputingTrace).selection = [] ∧
    (orchExec staleComputingTrace).pollTimers =
      [(repoKey repoA, repoA, POLL_INTERVAL_MS)] ∧
    (orchStep (orchExec staleComputingTrace)
        (.timerFire (repoKey repoA))).inFlight =
      [(repoKey repoA, repoA)] := by decide
